import Mathlib

/-!
Shallow embedding of the core engines of the `json-workbench` repository
(`src/utils/path-utils.ts`, `src/utils/diff-utils.ts`,
`src/utils/json-utils.ts`) and proofs of the frozen claims about them.

Modelling conventions:
* JSON values are the closed variant `Json` (numbers are carried as `Int`;
  none of the verified functions inspects numeric values beyond JS
  stringification of integral numbers, which agrees with `Int.repr`).
* JS strings are modelled as Lean `String` / `List Char`; the claims'
  inputs are ASCII, where JS UTF-16 indices and code points coincide.
* A JS function that can throw a `TypeError` (`Object.entries(null)`,
  `hasOwnProperty.call(null, _)`) is embedded with an `Option` result,
  `none` standing for the thrown exception.
* `JSON.parse` is a platform builtin, not repository code; it is passed
  to `parseJsonWithDiagnostics` as an explicit parameter
  `jp : String → Except String Json`, `Except.error msg` standing for a
  thrown `SyntaxError` with message `msg`.
-/

namespace Workbench

/-- The JSON value data model (`src/types.ts`: the `any`-typed values
produced by `JSON.parse`), as a closed tagged variant. -/
inductive Json where
  | null
  | bool (b : Bool)
  | num (n : Int)
  | str (s : String)
  | arr (items : List Json)
  | obj (entries : List (String × Json))
deriving Repr

/-- `PathSegment = string | number` from `src/types.ts`: a non-negative
integer array index or a string object key. -/
inductive PathSegment where
  | idx (i : Nat)
  | key (k : String)
deriving Repr, DecidableEq

/-- JS coercion of a path segment to a property name (`String(segment)`;
object property access coerces number keys to their decimal string). -/
def segToString : PathSegment → String
  | .idx i => Nat.repr i
  | .key k => k

/-- `isPlainObject` from `path-utils.ts`: non-null, `typeof === "object"`,
not an array. -/
def isPlainObject : Json → Bool
  | .obj _ => true
  | _ => false

/-- `isContainer` from `path-utils.ts`: array or plain object. -/
def isContainer : Json → Bool
  | .arr _ => true
  | .obj _ => true
  | _ => false

/-- `valueType` from `path-utils.ts` (`typeof`-based tag). -/
def valueType : Json → String
  | .null => "null"
  | .arr _ => "array"
  | .bool _ => "boolean"
  | .num _ => "number"
  | .str _ => "string"
  | .obj _ => "object"

/-- `getEntries` from `path-utils.ts`.  `Object.entries` throws a
`TypeError` on `null` (modelled as `none`); on a string it enumerates the
UTF-16 index properties; on numbers and booleans it returns `[]`. -/
def getEntries : Json → Option (List (PathSegment × Json))
  | .arr items => some (items.enum.map fun p => (.idx p.1, p.2))
  | .obj entries => some (entries.map fun p => (.key p.1, p.2))
  | .null => none
  | .str s => some ((s.toList.enum.map fun p => (.key (Nat.repr p.1), Json.str (String.mk [p.2]))))
  | .num _ => some []
  | .bool _ => some []

/-- `hasChild` from `path-utils.ts`.  For arrays: `typeof key === "number"
&& Number.isInteger(key) && key >= 0 && key < length` (the numeric checks
are identically true for a `Nat` index, and a string key fails the
`typeof` test).  For anything else: `Object.prototype.hasOwnProperty`,
which throws a `TypeError` on `null` (`none`), looks the coerced key up
among an object's own keys, sees the index properties and `length` of a
string, and finds nothing on numbers and booleans. -/
def hasChild : Json → PathSegment → Option Bool
  | .arr items, .idx i => some (decide (i < items.length))
  | .arr _, .key _ => some false
  | .obj entries, seg => some ((entries.map Prod.fst).contains (segToString seg))
  | .null, _ => none
  | .str s, .idx i => some (decide (i < s.length))
  | .str s, .key k =>
      some (k = "length" || (List.range s.length).any fun i => Nat.repr i = k)
  | .num _, _ => some false
  | .bool _, _ => some false

/-- The child access `cursor[segment]` performed by `sanitizePath` after
`isContainer`/`hasChild` have succeeded; `Json.null` is an arbitrary
default for the (guarded-away) missing cases. -/
def childVal : Json → PathSegment → Json
  | .arr items, .idx i => items.getD i Json.null
  | .obj entries, seg => (entries.lookup (segToString seg)).getD Json.null
  | _, _ => Json.null

/-- `sanitizePath` from `path-utils.ts`: walk the path against the root,
stopping at (and excluding) the first segment for which
`!isContainer(cursor) || !hasChild(cursor, segment)`.  On a container
`hasChild` never throws, so `Option.getD false` is exact. -/
def sanitizePath : List PathSegment → Json → List PathSegment
  | [], _ => []
  | seg :: rest, cursor =>
      if isContainer cursor && (hasChild cursor seg).getD false then
        seg :: sanitizePath rest (childVal cursor seg)
      else
        []

/-- One resolution chain of the spec: every successive segment of the
path resolves from the previous cursor via `isContainer` and `hasChild`. -/
def pathResolves : Json → List PathSegment → Bool
  | _, [] => true
  | cursor, seg :: rest =>
      isContainer cursor && (hasChild cursor seg).getD false
        && pathResolves (childVal cursor seg) rest

/-- `l.startsWith pat` on character lists (JS `String.prototype.startsWith`). -/
def listStartsWith : List Char → List Char → Bool
  | [], _ => true
  | _ :: _, [] => false
  | p :: ps, c :: cs => p = c && listStartsWith ps cs

/-- `haystack.includes(needle)` on character lists. -/
def listContains : List Char → List Char → Bool
  | s, pat =>
      listStartsWith pat s
        || match s with
           | [] => false
           | _ :: t => listContains t pat

/-- `a.includes(b)` for strings. -/
def strIncludes (haystack needle : String) : Bool :=
  listContains haystack.toList needle.toList

/-- `String.prototype.toLowerCase`, restricted to the ASCII mapping. -/
def jsToLower (s : String) : String :=
  String.mk (s.toList.map Char.toLower)

/-- `truncate` from `path-utils.ts`. -/
def truncate (value : String) (length : Nat) : String :=
  if value.length ≤ length then value
  else String.mk (value.toList.take (length - 1)) ++ "..."

mutual

/-- JS `String(value)` on a JSON value (integral numbers render as their
decimal form; arrays join their elements with commas, `null` elements
becoming empty; plain objects render as `[object Object]`). -/
def jsToString : Json → String
  | .null => "null"
  | .bool b => if b then "true" else "false"
  | .num n => n.repr
  | .str s => s
  | .obj _ => "[object Object]"
  | .arr items => String.intercalate "," (jsArrStrings items)

/-- Element rendering of `Array.prototype.join`: `null` becomes empty. -/
def jsArrStrings : List Json → List String
  | [] => []
  | .null :: rest => "" :: jsArrStrings rest
  | v :: rest => jsToString v :: jsArrStrings rest

end

/-- `matchesQuery` from `path-utils.ts`. -/
def matchesQuery (key : PathSegment) (value : Json) (query : String) : Bool :=
  if query = "" then false
  else
    let lower := jsToLower query
    if strIncludes (jsToLower (segToString key)) lower then true
    else if isContainer value then false
    else strIncludes (jsToLower (jsToString value)) lower

/-- `ExploreHit` from `src/types.ts`. -/
structure ExploreHit where
  path : List PathSegment
  preview : String
deriving Repr, DecidableEq

/-- `formatPath` from `path-utils.ts`. -/
def formatPath (path : List PathSegment) : String :=
  if path.length = 0 then "root"
  else "root > " ++ String.intercalate " > " (path.map segToString)

mutual

/-- The closure `walk` of `searchTree` in `path-utils.ts`, with the
mutable `hits` accumulator threaded explicitly.  On entry the walk
returns unchanged once the cap is reached; arrays recurse into their
elements in index order; objects test each key (pushing a key hit when it
contains the lowered query and capacity remains) before recursing into
its value; scalars push a value hit when their stringification contains
the query. -/
def searchWalk (lower : String) (maxResults : Nat) :
    Json → List PathSegment → List ExploreHit → List ExploreHit
  | value, path, hits =>
      if hits.length ≥ maxResults then hits
      else
        match value with
        | .arr items => searchWalkArr lower maxResults items 0 path hits
        | .obj entries => searchWalkObj lower maxResults entries path hits
        | v =>
            let text := jsToString v
            if strIncludes (jsToLower text) lower && hits.length < maxResults then
              hits ++ [{ path := path, preview := valueType v ++ " " ++ truncate text 26 }]
            else hits

/-- `value.forEach((item, index) => walk(item, path.concat(index)))`. -/
def searchWalkArr (lower : String) (maxResults : Nat) :
    List Json → Nat → List PathSegment → List ExploreHit → List ExploreHit
  | [], _, _, hits => hits
  | item :: rest, index, path, hits =>
      searchWalkArr lower maxResults rest (index + 1) path
        (searchWalk lower maxResults item (path ++ [.idx index]) hits)

/-- `Object.keys(value).forEach((key) => ...)` of `searchTree`. -/
def searchWalkObj (lower : String) (maxResults : Nat) :
    List (String × Json) → List PathSegment → List ExploreHit → List ExploreHit
  | [], _, hits => hits
  | (k, v) :: rest, path, hits =>
      let nextPath := path ++ [.key k]
      let hits1 :=
        if strIncludes (jsToLower k) lower && hits.length < maxResults then
          hits ++ [{ path := nextPath, preview := "key \"" ++ k ++ "\"" }]
        else hits
      searchWalkObj lower maxResults rest path
        (searchWalk lower maxResults v nextPath hits1)

end

/-- `searchTree` from `path-utils.ts`. -/
def searchTree (root : Json) (query : String) (maxResults : Nat) : List ExploreHit :=
  searchWalk (jsToLower query) maxResults root [] []

/-- The identifier test `/^[A-Za-z0-9_$]...$/` shared by the two path
serializers (`^[A-Za-z_$][A-Za-z0-9_$]*$`). -/
def isIdentName (s : String) : Bool :=
  match s.toList with
  | [] => false
  | c :: rest =>
      (c.isAlpha || c = '_' || c = '$')
        && rest.all fun d => d.isAlphanum || d = '_' || d = '$'

/-- `JSON.stringify` of a string: double quotes around the escaped body;
`"`, `\`, backspace, tab, newline, form feed and carriage return get
their two-character escapes, other control characters a `\u00XX` escape,
all other characters pass through. -/
def jsonQuoteChar (c : Char) : List Char :=
  if c = '"' then ['\\', '"']
  else if c = '\\' then ['\\', '\\']
  else if c = '\x08' then ['\\', 'b']
  else if c = '\t' then ['\\', 't']
  else if c = '\n' then ['\\', 'n']
  else if c = '\x0c' then ['\\', 'f']
  else if c = '\r' then ['\\', 'r']
  else if c.toNat < 32 then
    ['\\', 'u', '0', '0',
      (Nat.digitChar (c.toNat / 16)), (Nat.digitChar (c.toNat % 16))]
  else [c]

/-- `JSON.stringify(segment)` for a string segment. -/
def jsonStringifyStr (s : String) : String :=
  "\"" ++ String.mk (s.toList.flatMap jsonQuoteChar) ++ "\""

/-- `toDotPath` from `path-utils.ts`. -/
def toDotPath (path : List PathSegment) : String :=
  path.foldl
    (fun output seg =>
      match seg with
      | .idx i => output ++ "[" ++ Nat.repr i ++ "]"
      | .key k =>
          if isIdentName k then output ++ "." ++ k
          else output ++ "[" ++ jsonStringifyStr k ++ "]")
    "root"

/-- `toJsonPath` from `path-utils.ts`. -/
def toJsonPath (path : List PathSegment) : String :=
  path.foldl
    (fun output seg =>
      match seg with
      | .idx i => output ++ "[" ++ Nat.repr i ++ "]"
      | .key k =>
          if isIdentName k then output ++ "." ++ k
          else output ++ "[" ++ jsonStringifyStr k ++ "]")
    "$"

/-! ### DiffEngine (`src/utils/diff-utils.ts`) -/

/-- `DiffOp` from `src/types.ts`. -/
inductive DiffOp where
  | equal (left right : String)
  | del (left : String)
  | add (right : String)
deriving Repr, DecidableEq

/-- The LCS dynamic-programming table of `diffLines`:
`table[i][j] = lcsLen (left.drop i) (right.drop j)` (the `Int32Array`
rows are zero-initialised, giving the `table[n][_] = table[_][m] = 0`
base cases; all row lengths fit far below `2^31` under the cell guard). -/
def lcsLen : List String → List String → Nat
  | [], _ => 0
  | _ :: _, [] => 0
  | a :: as, b :: bs =>
      if a = b then lcsLen as bs + 1
      else max (lcsLen as (b :: bs)) (lcsLen (a :: as) bs)
termination_by l r => l.length + r.length

/-- The forward walk of `diffLines` from `(0,0)`: `Equal` on matching
lines, otherwise delete when `table[i+1][j] >= table[i][j+1]`, else
insert; the two trailing `while` loops drain the leftover side. -/
def lcsWalk : List String → List String → List DiffOp
  | [], rights => rights.map .add
  | l :: ls, [] => (l :: ls).map .del
  | l :: ls, r :: rs =>
      if l = r then .equal l r :: lcsWalk ls rs
      else if lcsLen ls (r :: rs) ≥ lcsLen (l :: ls) rs then
        .del l :: lcsWalk ls (r :: rs)
      else
        .add r :: lcsWalk (l :: ls) rs
termination_by l r => l.length + r.length

/-- `quickDiff` from `diff-utils.ts`: the positional walk by shared
index, emitting `Equal` when both sides are defined and equal, else a
delete for a defined left line and/or an insert for a defined right
line. -/
def quickDiff : List String → List String → List DiffOp
  | [], [] => []
  | l :: ls, [] => .del l :: quickDiff ls []
  | [], r :: rs => .add r :: quickDiff [] rs
  | l :: ls, r :: rs =>
      if l = r then .equal l r :: quickDiff ls rs
      else .del l :: .add r :: quickDiff ls rs

/-- `diffLines` from `diff-utils.ts`. -/
def diffLines (left right : List String) : List DiffOp :=
  if left.length * right.length > 3000000 then quickDiff left right
  else lcsWalk left right

/-- Row kinds of `UnifiedDiffRow`. -/
inductive RowKind where
  | context
  | del
  | add
deriving Repr, DecidableEq

/-- `UnifiedDiffRow` from `src/types.ts` (`null` line numbers are `none`). -/
structure UnifiedDiffRow where
  kind : RowKind
  leftNo : Option Nat
  rightNo : Option Nat
  text : String
deriving Repr, DecidableEq

/-- The `forEach` fold of `operationsToUnifiedRows`, with the two
running counters explicit. -/
def unifiedRowsGo (leftNo rightNo : Nat) : List DiffOp → List UnifiedDiffRow
  | [] => []
  | .equal l _ :: rest =>
      { kind := .context, leftNo := some leftNo, rightNo := some rightNo, text := l }
        :: unifiedRowsGo (leftNo + 1) (rightNo + 1) rest
  | .del l :: rest =>
      { kind := .del, leftNo := some leftNo, rightNo := none, text := l }
        :: unifiedRowsGo (leftNo + 1) rightNo rest
  | .add r :: rest =>
      { kind := .add, leftNo := none, rightNo := some rightNo, text := r }
        :: unifiedRowsGo leftNo (rightNo + 1) rest

/-- `operationsToUnifiedRows` from `diff-utils.ts`: both counters start
at 1. -/
def operationsToUnifiedRows (ops : List DiffOp) : List UnifiedDiffRow :=
  unifiedRowsGo 1 1 ops

/-- `VisibleDiffRow` from `src/types.ts`: a unified row or a gap marker. -/
inductive VisibleDiffRow where
  | row (r : UnifiedDiffRow)
  | gap (omitted : Nat)
deriving Repr, DecidableEq

/-- The scanning `while` loop of `sliceDiffWithContext` over rows paired
with their `keep` flags: a kept row is emitted verbatim; a maximal run of
unkept rows is collapsed into one `gap` carrying its length. -/
def collapseRuns : List (UnifiedDiffRow × Bool) → List VisibleDiffRow
  | [] => []
  | (r, true) :: rest => .row r :: collapseRuns rest
  | (r, false) :: rest =>
      let run := rest.takeWhile fun p => !p.2
      .gap (run.length + 1) :: collapseRuns (rest.drop run.length)
termination_by l => l.length
decreasing_by
  simp_wf
  simp only [List.length_drop, List.length_cons]
  have := (List.takeWhile_sublist (l := rest) fun p => !p.2).length_le
  omega

/-- `sliceDiffWithContext` from `diff-utils.ts`.  `changedIndexes` lists
the indexes of non-context rows; `keep` reproduces the boolean array
marked over `[max(0, j - contextLines), min(rows.length - 1, j + contextLines)]`
for each changed index `j` (with `Nat` subtraction realising the `max 0`
clamp); the scan loop is `collapseRuns`. -/
def sliceDiffWithContext (rows : List UnifiedDiffRow) (contextLines : Nat) :
    List VisibleDiffRow :=
  let changedIndexes := rows.enum.filterMap fun p =>
    if p.2.kind ≠ RowKind.context then some p.1 else none
  if changedIndexes.length = 0 then []
  else
    let keep : Nat → Bool := fun i =>
      changedIndexes.any fun j =>
        j - contextLines ≤ i && i ≤ min (rows.length - 1) (j + contextLines)
    collapseRuns (rows.enum.map fun p => (p.2, keep p.1))

/-! ### DiagnosticParser (`src/utils/json-utils.ts`)

The regular expressions of the source are modelled as character-list
scanners.  Every pattern involved alternates disjoint character classes
(whitespace / digits / literals), so greedy `takeWhile`/`dropWhile`
scanning coincides with the backtracking regex semantics, and the
scan-from-the-left search reproduces the leftmost-match rule of
`String.prototype.match` / `RegExp.prototype.test` / one-shot `replace`. -/

/-- The JS whitespace class (`\s`, and the set trimmed by
`String.prototype.trim`). -/
def isJsWhitespace (c : Char) : Bool :=
  c = ' ' || c = '\t' || c = '\n' || c = '\r' || c = '\x0b' || c = '\x0c'
    || c.toNat = 0xA0 || c.toNat = 0x1680
    || (0x2000 ≤ c.toNat && c.toNat ≤ 0x200A)
    || c.toNat = 0x2028 || c.toNat = 0x2029 || c.toNat = 0x202F
    || c.toNat = 0x205F || c.toNat = 0x3000 || c.toNat = 0xFEFF

/-- `!text.trim()`: the text is empty or entirely whitespace. -/
def isBlank (text : String) : Bool :=
  text.toList.all isJsWhitespace

/-- `Number(digits)` for a non-empty digit run. -/
def digitsToNat (ds : List Char) : Nat :=
  ds.foldl (fun acc c => acc * 10 + (c.toNat - '0'.toNat)) 0

/-- Case-insensitive literal match at the head of a character list. -/
def listStartsWithCI : List Char → List Char → Bool
  | [], _ => true
  | _ :: _, [] => false
  | p :: ps, c :: cs => p.toLower = c.toLower && listStartsWithCI ps cs

/-- Leftmost-match search: try the matcher at every start position. -/
def findFirstScan {α : Type} (f : List Char → Option α) : List Char → Option α
  | [] => f []
  | s@(_ :: t) =>
      match f s with
      | some a => some a
      | none => findFirstScan f t

/-- Does some suffix satisfy the head matcher (substring containment of a
pattern)? -/
def anySuffix (p : List Char → Bool) : List Char → Bool
  | [] => p []
  | s@(_ :: t) => p s || anySuffix p t

/-- Case-sensitive substring containment of a literal. -/
def containsLit (s lit : List Char) : Bool :=
  anySuffix (fun t => listStartsWith lit t) s

/-- Case-insensitive substring containment of a literal. -/
def containsLitCI (s lit : List Char) : Bool :=
  anySuffix (fun t => listStartsWithCI lit t) s

/-- `/position\s+(\d+)/i` anchored at the head: the literal `position`,
one or more whitespace characters, one or more digits. -/
def matchPositionAt (s : List Char) : Option Nat :=
  if listStartsWithCI "position".toList s then
    let rest := s.drop 8
    let ws := rest.takeWhile isJsWhitespace
    let ds := (rest.drop ws.length).takeWhile Char.isDigit
    if ws.length ≠ 0 && ds.length ≠ 0 then some (digitsToNat ds) else none
  else none

/-- `/line\s+(\d+)\s+column\s+(\d+)/i` anchored at the head. -/
def matchLineColAt (s : List Char) : Option (Nat × Nat) :=
  if listStartsWithCI "line".toList s then
    let r1 := s.drop 4
    let ws1 := r1.takeWhile isJsWhitespace
    let d1 := (r1.drop ws1.length).takeWhile Char.isDigit
    let r2 := (r1.drop ws1.length).drop d1.length
    let ws2 := r2.takeWhile isJsWhitespace
    let r3 := r2.drop ws2.length
    if ws1.length ≠ 0 && d1.length ≠ 0 && ws2.length ≠ 0
        && listStartsWithCI "column".toList r3 then
      let r4 := r3.drop 6
      let ws3 := r4.takeWhile isJsWhitespace
      let d2 := (r4.drop ws3.length).takeWhile Char.isDigit
      if ws3.length ≠ 0 && d2.length ≠ 0 then
        some (digitsToNat d1, digitsToNat d2)
      else none
    else none
  else none

/-- `text.split(/\r?\n/)`: split on `\n`, a `\r` immediately before the
`\n` being consumed with it.  The accumulator holds the current piece
reversed. -/
def splitLinesGo : List Char → List Char → List (List Char)
  | [], cur => [cur.reverse]
  | '\n' :: t, cur =>
      (match cur with
       | '\r' :: cs => cs
       | _ => cur).reverse :: splitLinesGo t []
  | c :: t, cur => splitLinesGo t (c :: cur)

/-- `text.split(/\r?\n/)`. -/
def splitLines (text : List Char) : List (List Char) :=
  splitLinesGo text []

/-- `clamp` from `json-utils.ts` on non-negative numbers:
`Math.min(max, Math.max(min, value))` with `min = 0`. -/
def clampNat (value hi : Nat) : Nat :=
  min hi value

/-- `toOffset` from `json-utils.ts`: sum the lengths (+1 newline) of the
lines before `line`, add `column - 1`, clamp into `[0, length - 1]`. -/
def toOffset (text : List Char) (line column : Nat) : Nat :=
  let lines := splitLines text
  let offset := ((lines.take (line - 1)).map fun ln => ln.length + 1).sum
  clampNat (offset + (column - 1)) (text.length - 1)

/-- `extractPositionFromMessage` from `json-utils.ts`. -/
def extractPositionFromMessage (text msg : List Char) : Nat :=
  match findFirstScan matchPositionAt msg with
  | some n => clampNat n (text.length - 1)
  | none =>
      match findFirstScan matchLineColAt msg with
      | some lc => toOffset text lc.1 lc.2
      | none => text.length - 1

/-- The line-scanning loop of `toLineColumn`: find the first line whose
span `[consumed, consumed + length]` contains the position. -/
def toLineColumnGo : List (List Char) → Nat → Nat → Nat → Option (Nat × Nat)
  | [], _, _, _ => none
  | ln :: rest, position, consumed, index =>
      if position ≤ consumed + ln.length then
        some (index + 1, position - consumed + 1)
      else
        toLineColumnGo rest position (consumed + ln.length + 1) (index + 1)

/-- `toLineColumn` from `json-utils.ts` (1-based line and column, with
the past-the-last-line fallback). -/
def toLineColumn (text : List Char) (position : Nat) : Nat × Nat :=
  let lines := splitLines text
  match toLineColumnGo lines position 0 0 with
  | some lc => lc
  | none =>
      let fallback := if lines.length = 0 then 1 else lines.length
      (fallback, (lines.getD (fallback - 1) []).length + 1)

/-- `/\,\s*[}\]]/`: a comma, optional whitespace, then `\x7d` or `]`. -/
def hasCommaBeforeClose (s : List Char) : Bool :=
  anySuffix
    (fun t =>
      match t with
      | ',' :: u =>
          match u.dropWhile isJsWhitespace with
          | c :: _ => c = '\x7d' || c = ']'
          | [] => false
      | _ => false)
    s

/-- `/Unexpected token [}\]]/` on the raw message. -/
def hasUnexpectedCloseToken (msg : List Char) : Bool :=
  anySuffix
    (fun t =>
      listStartsWith "Unexpected token ".toList t
        && match t.drop 17 with
           | c :: _ => c = '\x7d' || c = ']'
           | [] => false)
    msg

/-- `/'[^']*'\s*:|:\s*'[^']*'/`: a single-quoted run before a colon, or a
colon followed by a single-quoted run. -/
def hasSingleQuoted (s : List Char) : Bool :=
  anySuffix
    (fun t =>
      match t with
      | '\'' :: u =>
          let inner := u.takeWhile fun c => c ≠ '\''
          (match u.drop inner.length with
           | '\'' :: v =>
               (match v.dropWhile isJsWhitespace with
                | ':' :: _ => true
                | _ => false)
           | _ => false)
      | ':' :: u =>
          (match u.dropWhile isJsWhitespace with
           | '\'' :: v =>
               let inner := v.takeWhile fun c => c ≠ '\''
               (match v.drop inner.length with
                | '\'' :: _ => true
                | _ => false)
           | _ => false)
      | _ => false)
    s

/-- `/[{,]\s*[A-Za-z_$][\w$-]*\s*:/`: an unquoted identifier-shaped key
right after `\x7b` or `,`, followed by a colon. -/
def hasUnquotedKey (s : List Char) : Bool :=
  anySuffix
    (fun t =>
      match t with
      | c :: u =>
          (c = '\x7b' || c = ',')
            && match u.dropWhile isJsWhitespace with
               | d :: v =>
                   (d.isAlpha || d = '_' || d = '$')
                     && (match (v.dropWhile fun e =>
                              e.isAlphanum || e = '_' || e = '$' || e = '-').dropWhile
                              isJsWhitespace with
                         | ':' :: _ => true
                         | _ => false)
               | [] => false
      | [] => false)
    s

/-- `/"\s*"/ | /\d\s*"/ | /true\s*"/`: two adjacent value tokens with
only whitespace between. -/
def hasAdjacentValues (s : List Char) : Bool :=
  anySuffix
    (fun t =>
      match t with
      | c :: u =>
          ((c = '"' || c.isDigit)
              && match u.dropWhile isJsWhitespace with
                 | '"' :: _ => true
                 | _ => false)
            || (listStartsWith "true".toList t
                  && match (t.drop 4).dropWhile isJsWhitespace with
                     | '"' :: _ => true
                     | _ => false)
      | [] => false)
    s

/-- `suggestFix` from `json-utils.ts`: the 40-characters-each-side window
around the offset, then the first-match-wins classification. -/
def suggestFix (text : List Char) (position : Nat) (msg : List Char) : String :=
  let around := (text.drop (position - 40)).take
    (min text.length (position + 40) - (position - 40))
  if hasCommaBeforeClose around || hasUnexpectedCloseToken msg then
    "Check for a trailing comma before a closing brace or bracket."
  else if hasSingleQuoted around || containsLit msg "Unexpected token '".toList then
    "Use double quotes for keys and string values."
  else if hasUnquotedKey around then
    "Wrap object keys in double quotes."
  else if containsLit around "/*".toList || containsLit around "//".toList then
    "Remove comments. JSON does not allow comments."
  else if containsLitCI msg "Unexpected end of JSON input".toList then
    "The document looks truncated. Check missing closing braces or brackets."
  else if hasAdjacentValues around then
    "You may be missing a comma between values."
  else
    "Inspect this position for missing commas, quotes, or invalid characters."

/-- `/\s+in\s+JSON\s+at\s+position\s+\d+/i` anchored at the head,
returning the length of the match. -/
def matchBoilerplateAt (s : List Char) : Option Nat :=
  let ws1 := s.takeWhile isJsWhitespace
  let r1 := s.drop ws1.length
  if ws1.length ≠ 0 && listStartsWithCI "in".toList r1 then
    let r2 := r1.drop 2
    let ws2 := r2.takeWhile isJsWhitespace
    let r3 := r2.drop ws2.length
    if ws2.length ≠ 0 && listStartsWithCI "json".toList r3 then
      let r4 := r3.drop 4
      let ws3 := r4.takeWhile isJsWhitespace
      let r5 := r4.drop ws3.length
      if ws3.length ≠ 0 && listStartsWithCI "at".toList r5 then
        let r6 := r5.drop 2
        let ws4 := r6.takeWhile isJsWhitespace
        let r7 := r6.drop ws4.length
        if ws4.length ≠ 0 && listStartsWithCI "position".toList r7 then
          let r8 := r7.drop 8
          let ws5 := r8.takeWhile isJsWhitespace
          let ds := (r8.drop ws5.length).takeWhile Char.isDigit
          if ws5.length ≠ 0 && ds.length ≠ 0 then
            some (ws1.length + 2 + ws2.length + 4 + ws3.length + 2
              + ws4.length + 8 + ws5.length + ds.length)
          else none
        else none
      else none
    else none
  else none

/-- One-shot `String.prototype.replace`: remove the leftmost match. -/
def removeFirstMatch (f : List Char → Option Nat) : List Char → List Char
  | [] =>
      (match f [] with
       | some len => ([] : List Char).drop len
       | none => [])
  | s@(c :: t) =>
      match f s with
      | some len => s.drop len
      | none => c :: removeFirstMatch f t

/-- `normalizeParserMessage` from `json-utils.ts`. -/
def normalizeParserMessage (msg : List Char) : String :=
  String.mk (removeFirstMatch matchBoilerplateAt msg)

/-- `buildErrorContext` from `json-utils.ts`. -/
def buildErrorContext (text : List Char) (line column : Nat) : String × String :=
  let lines := splitLines text
  (String.mk (lines.getD (line - 1) []),
   String.mk (List.replicate (column - 1) ' ') ++ "^")

/-- `ParseErrorInfo` from `src/types.ts`. -/
structure ParseErrorInfo where
  message : String
  position : Nat
  line : Nat
  column : Nat
  suggestion : String
  lineText : String
  caretLine : String
deriving Repr, DecidableEq

/-- `ParseResult` from `src/types.ts` (`null` fields are `none`). -/
structure ParseResult where
  empty : Bool
  ok : Bool
  value : Option Json
  error : Option ParseErrorInfo
deriving Repr

/-- `emptyParse` from `json-utils.ts`. -/
def emptyParse : ParseResult :=
  { empty := true, ok := false, value := none, error := none }

/-- `parseJsonWithDiagnostics` from `json-utils.ts`, with `JSON.parse`
passed in as `jp` (`Except.error msg` models a thrown `SyntaxError`
carrying message `msg`). -/
def parseJsonWithDiagnostics (jp : String → Except String Json) (text : String) :
    ParseResult :=
  if isBlank text then emptyParse
  else
    match jp text with
    | .ok value => { empty := false, ok := true, value := some value, error := none }
    | .error message =>
        let tl := text.toList
        let ml := message.toList
        let position := extractPositionFromMessage tl ml
        let lc := toLineColumn tl position
        let suggestion := suggestFix tl position ml
        let ctx := buildErrorContext tl lc.1 lc.2
        { empty := false, ok := false, value := none,
          error := some
            { message := normalizeParserMessage ml
              position := position
              line := lc.1
              column := lc.2
              suggestion := suggestion
              lineText := ctx.1
              caretLine := ctx.2 } }

/-! ### Derived notions used by the claims -/

/-- The left-side line carried by an op (`Equal.left` / `Delete.left`). -/
def opLeftLine : DiffOp → Option String
  | .equal l _ => some l
  | .del l => some l
  | .add _ => none

/-- The right-side line carried by an op (`Equal.right` / `Insert.right`). -/
def opRightLine : DiffOp → Option String
  | .equal _ r => some r
  | .del _ => none
  | .add r => some r

/-! ### Lemmas for C2: reconstruction of both sides from the edit script -/

theorem quickDiff_nil_left : ∀ r : List String, quickDiff [] r = r.map .add := by
  intro r
  induction r with
  | nil => simp [quickDiff]
  | cons b bs ih => simp [quickDiff, ih]

theorem quickDiff_lefts : ∀ l r : List String, (quickDiff l r).filterMap opLeftLine = l := by
  intro l
  induction l with
  | nil =>
      intro r
      simp [quickDiff_nil_left, List.filterMap_map, Function.comp_def, opLeftLine]
  | cons a as ih =>
      intro r
      cases r with
      | nil => simp [quickDiff, opLeftLine, ih []]
      | cons b bs =>
          simp only [quickDiff]
          split <;> simp [opLeftLine, ih bs]

theorem quickDiff_rights : ∀ l r : List String, (quickDiff l r).filterMap opRightLine = r := by
  intro l
  induction l with
  | nil =>
      intro r
      simp [quickDiff_nil_left, List.filterMap_map, Function.comp_def, opRightLine]
  | cons a as ih =>
      intro r
      cases r with
      | nil =>
          have : ∀ ls : List String, (quickDiff ls []).filterMap opRightLine = [] := by
            intro ls
            induction ls with
            | nil => simp [quickDiff]
            | cons x xs ihx => simp [quickDiff, opRightLine, ihx]
          exact this (a :: as)
      | cons b bs =>
          simp only [quickDiff]
          split <;> simp [opRightLine, ih bs]

theorem lcsWalk_lefts : ∀ l r : List String, (lcsWalk l r).filterMap opLeftLine = l := by
  intro l
  induction l with
  | nil =>
      intro r
      simp [lcsWalk, List.filterMap_map, Function.comp_def, opLeftLine]
  | cons a as ihl =>
      intro r
      induction r with
      | nil =>
          simp [lcsWalk, List.filterMap_map, Function.comp_def, opLeftLine]
      | cons b bs ihr =>
          rw [lcsWalk]
          split
          · simp [opLeftLine, ihl bs]
          · split
            · simp [opLeftLine, ihl (b :: bs)]
            · simpa [opLeftLine] using ihr

theorem lcsWalk_rights : ∀ l r : List String, (lcsWalk l r).filterMap opRightLine = r := by
  intro l
  induction l with
  | nil =>
      intro r
      simp [lcsWalk, List.filterMap_map, Function.comp_def, opRightLine]
  | cons a as ihl =>
      intro r
      induction r with
      | nil =>
          simp [lcsWalk, List.filterMap_map, Function.comp_def, opRightLine]
      | cons b bs ihr =>
          rw [lcsWalk]
          split
          · next h => subst h; simp [opRightLine, ihl bs]
          · split
            · simp [opRightLine, ihl (b :: bs)]
            · simpa [opRightLine] using ihr

/-- C2: for every pair of line sequences (both the LCS branch and the
`quickDiff` fallback branch), the ops carrying left-side text (`Equal`
and `Delete`), in output order, list exactly the lines of `left`;
symmetrically, the ops carrying right-side text (`Equal` and `Insert`)
list exactly the lines of `right`. -/
theorem claim_C2_reconstruction :
    ∀ left right : List String,
      (diffLines left right).filterMap opLeftLine = left
        ∧ (diffLines left right).filterMap opRightLine = right := by
  intro left right
  unfold diffLines
  split
  · exact ⟨quickDiff_lefts left right, quickDiff_rights left right⟩
  · exact ⟨lcsWalk_lefts left right, lcsWalk_rights left right⟩

/-! ### Lemmas for C7: row materialization -/

/-- Does an op consume a left line (advance the left counter)? -/
def consumesLeft : DiffOp → Bool
  | .equal _ _ => true
  | .del _ => true
  | .add _ => false

/-- Does an op consume a right line (advance the right counter)? -/
def consumesRight : DiffOp → Bool
  | .equal _ _ => true
  | .del _ => false
  | .add _ => true

/-- The row the spec assigns to an op given the current counters. -/
def rowSpec (op : DiffOp) (l r : Nat) : UnifiedDiffRow :=
  match op with
  | .equal a _ => { kind := .context, leftNo := some l, rightNo := some r, text := a }
  | .del a => { kind := .del, leftNo := some l, rightNo := none, text := a }
  | .add b => { kind := .add, leftNo := none, rightNo := some r, text := b }

theorem unifiedRowsGo_length :
    ∀ (ops : List DiffOp) (l r : Nat), (unifiedRowsGo l r ops).length = ops.length := by
  intro ops
  induction ops with
  | nil => intro l r; rfl
  | cons op rest ih =>
      intro l r
      cases op <;> simp [unifiedRowsGo, ih]

theorem unifiedRowsGo_get :
    ∀ (ops : List DiffOp) (l r k : Nat),
      (unifiedRowsGo l r ops)[k]? =
        (ops[k]?).map fun op =>
          rowSpec op (l + (ops.take k).countP consumesLeft)
            (r + (ops.take k).countP consumesRight) := by
  intro ops
  induction ops with
  | nil => intro l r k; simp [unifiedRowsGo]
  | cons op rest ih =>
      intro l r k
      cases k with
      | zero => cases op <;> simp [unifiedRowsGo, rowSpec]
      | succ k =>
          cases op with
          | equal a b =>
              simp only [unifiedRowsGo, List.getElem?_cons_succ, List.take_succ_cons,
                List.countP_cons, ih rest.length.succ]
              rw [ih]
              simp [consumesLeft, consumesRight, Nat.add_assoc, Nat.add_comm 1]
          | del a =>
              simp only [unifiedRowsGo, List.getElem?_cons_succ, List.take_succ_cons,
                List.countP_cons]
              rw [ih]
              simp [consumesLeft, consumesRight, Nat.add_assoc, Nat.add_comm 1]
          | add b =>
              simp only [unifiedRowsGo, List.getElem?_cons_succ, List.take_succ_cons,
                List.countP_cons]
              rw [ih]
              simp [consumesLeft, consumesRight, Nat.add_assoc, Nat.add_comm 1]

/-- C7: `toUnifiedRows` emits exactly one row per op; the `k`-th row is
determined by the `k`-th op and the two 1-based running counters (one
more than the number of earlier left-consuming / right-consuming ops):
an `Equal` row carries both counters, a `Delete` row only the left one,
an `Insert` row only the right one; on
`[Equal(a,a), Delete(b), Insert(x), Equal(c,c)]` the (left,right)
numbers are `(1,1), (2,null), (null,2), (3,3)`. -/
theorem claim_C7_row_materialization :
    (∀ ops : List DiffOp,
        (operationsToUnifiedRows ops).length = ops.length
          ∧ ∀ k : Nat,
              (operationsToUnifiedRows ops)[k]? =
                (ops[k]?).map fun op =>
                  rowSpec op (1 + (ops.take k).countP consumesLeft)
                    (1 + (ops.take k).countP consumesRight))
      ∧ operationsToUnifiedRows
          [.equal "a" "a", .del "b", .add "x", .equal "c" "c"] =
        [{ kind := .context, leftNo := some 1, rightNo := some 1, text := "a" },
         { kind := .del, leftNo := some 2, rightNo := none, text := "b" },
         { kind := .add, leftNo := none, rightNo := some 2, text := "x" },
         { kind := .context, leftNo := some 3, rightNo := some 3, text := "c" }] := by
  constructor
  · intro ops
    exact ⟨unifiedRowsGo_length ops 1 1, fun k => unifiedRowsGo_get ops 1 1 k⟩
  · rfl

/-! ### Lemmas for C10: the two path serializations -/

/-- The shared per-segment rendering of the two serializers: bracket
index for integers, dot-name for identifier-pattern keys, JSON-quoted
bracket otherwise. -/
def renderSeg : PathSegment → String
  | .idx i => "[" ++ Nat.repr i ++ "]"
  | .key k =>
      if isIdentName k then "." ++ k
      else "[" ++ jsonStringifyStr k ++ "]"

/-- The common suffix both serializers append after their root token. -/
def renderPath (path : List PathSegment) : String :=
  String.join (path.map renderSeg)

theorem strFoldlAppend :
    ∀ (l : List String) (a : String),
      l.foldl (fun r s => r ++ s) a = a ++ l.foldl (fun r s => r ++ s) "" := by
  intro l
  induction l with
  | nil => intro a; simp [String.append_empty]
  | cons x xs ih =>
      intro a
      simp only [List.foldl_cons]
      rw [ih (a ++ x), ih ("" ++ x)]
      simp [String.empty_append, String.append_assoc]

theorem toDotPath_foldl :
    ∀ (path : List PathSegment) (acc : String),
      path.foldl
        (fun output seg =>
          match seg with
          | .idx i => output ++ "[" ++ Nat.repr i ++ "]"
          | .key k =>
              if isIdentName k then output ++ "." ++ k
              else output ++ "[" ++ jsonStringifyStr k ++ "]")
        acc = acc ++ renderPath path := by
  intro path
  induction path with
  | nil => intro acc; simp [renderPath, String.join, String.append_empty]
  | cons seg rest ih =>
      intro acc
      cases seg with
      | idx i =>
          simp only [List.foldl_cons, ih]
          simp only [renderPath, renderSeg, String.join, List.map_cons, List.foldl_cons]
          rw [strFoldlAppend (List.map renderSeg rest) ("" ++ ("[" ++ i.repr ++ "]"))]
          simp [String.empty_append, String.append_assoc]
      | key k =>
          simp only [List.foldl_cons]
          by_cases h : isIdentName k
          · simp only [h, if_true, ih]
            simp only [renderPath, renderSeg, h, if_true, String.join, List.map_cons,
              List.foldl_cons]
            rw [strFoldlAppend (List.map renderSeg rest) ("" ++ ("." ++ k))]
            simp [String.empty_append, String.append_assoc]
          · simp only [h, if_false, Bool.false_eq_true, ih]
            simp only [renderPath, renderSeg, h, if_false, Bool.false_eq_true, String.join,
              List.map_cons, List.foldl_cons]
            rw [strFoldlAppend (List.map renderSeg rest)
              ("" ++ ("[" ++ jsonStringifyStr k ++ "]"))]
            simp [String.empty_append, String.append_assoc]

/-- C10: the two serializations agree segment for segment — `toDotPath p`
is `"root"` followed by a suffix `s` and `toJsonPathExpr p` is `"$"`
followed by the same suffix `s`. -/
theorem claim_C10_dialects_agree :
    ∀ path : List PathSegment,
      ∃ s : String, toDotPath path = "root" ++ s ∧ toJsonPath path = "$" ++ s := by
  intro path
  refine ⟨renderPath path, ?_, ?_⟩
  · exact toDotPath_foldl path "root"
  · exact toDotPath_foldl path "$"

/-! ### Lemmas for C3: path sanitization -/

theorem sanitizePath_resolves :
    ∀ (p : List PathSegment) (root : Json),
      pathResolves root (sanitizePath p root) = true := by
  intro p
  induction p with
  | nil => intro root; rfl
  | cons seg rest ih =>
      intro root
      by_cases h : (isContainer root && (hasChild root seg).getD false) = true
      · simp only [sanitizePath, h, if_true, pathResolves]
        simp only [h, Bool.true_and]
        exact ih (childVal root seg)
      · simp only [sanitizePath, h, if_false]
        rfl

theorem sanitizePath_isPre :
    ∀ (p : List PathSegment) (root : Json),
      ∃ t, sanitizePath p root ++ t = p := by
  intro p
  induction p with
  | nil => intro root; exact ⟨[], rfl⟩
  | cons seg rest ih =>
      intro root
      by_cases h : (isContainer root && (hasChild root seg).getD false) = true
      · obtain ⟨t, ht⟩ := ih (childVal root seg)
        exact ⟨t, by simp only [sanitizePath, h, if_true, List.cons_append, ht]⟩
      · exact ⟨seg :: rest, by simp only [sanitizePath, h, if_false]; rfl⟩

theorem sanitizePath_longest :
    ∀ (q p : List PathSegment) (root : Json),
      q <+: p → pathResolves root q = true →
        q.length ≤ (sanitizePath p root).length := by
  intro q
  induction q with
  | nil => intro p root _ _; exact Nat.zero_le _
  | cons s q' ih =>
      intro p root hpre hres
      obtain ⟨t, ht⟩ := hpre
      cases p with
      | nil => simp at ht
      | cons s' p' =>
          rw [List.cons_append] at ht
          obtain ⟨hs, ht'⟩ := List.cons.inj ht
          subst hs
          simp only [pathResolves, Bool.and_assoc, Bool.and_eq_true] at hres
          obtain ⟨hc, hh, hr⟩ := hres
          simp only [sanitizePath, hc, hh, Bool.and_self, if_true, List.length_cons]
          have := ih p' (childVal root s) ⟨t, ht'⟩ hr
          omega

theorem sanitizePath_idem :
    ∀ (p : List PathSegment) (root : Json),
      sanitizePath (sanitizePath p root) root = sanitizePath p root := by
  intro p
  induction p with
  | nil => intro root; rfl
  | cons seg rest ih =>
      intro root
      by_cases h : (isContainer root && (hasChild root seg).getD false) = true
      · simp only [sanitizePath, h, if_true]
        rw [ih (childVal root seg)]
      · simp only [sanitizePath, h, if_false]
        rfl

/-- C3: `sanitizePath(p, root)` is a prefix of `p`; every successive
segment of it resolves via `isContainer` and `hasChild`; it is the
longest such prefix; and `sanitizePath` is idempotent. -/
theorem claim_C3_sanitize_path :
    ∀ (p : List PathSegment) (root : Json),
      (sanitizePath p root <+: p)
        ∧ pathResolves root (sanitizePath p root) = true
        ∧ (∀ q, q <+: p → pathResolves root q = true →
            q.length ≤ (sanitizePath p root).length)
        ∧ sanitizePath (sanitizePath p root) root = sanitizePath p root := by
  intro p root
  exact ⟨sanitizePath_isPre p root, sanitizePath_resolves p root,
    fun q hq hr => sanitizePath_longest q p root hq hr,
    sanitizePath_idem p root⟩

/-- Witness for C3: the longest-prefix bound applied at a concrete path
and document — for root `\x7b"a": [5]\x7d` and path `["a", 1]`, the
resolving prefix `["a"]` has length within the sanitized length. -/
theorem claim_C3_sanitize_path_witness :
    ([PathSegment.key "a"] <+: [PathSegment.key "a", PathSegment.idx 1])
      ∧ pathResolves (Json.obj [("a", Json.arr [Json.num 5])]) [PathSegment.key "a"] = true
      ∧ ([PathSegment.key "a"] : List PathSegment).length ≤
          (sanitizePath [PathSegment.key "a", PathSegment.idx 1]
            (Json.obj [("a", Json.arr [Json.num 5])])).length :=
  have h1 : [PathSegment.key "a"] <+: [PathSegment.key "a", PathSegment.idx 1] :=
    ⟨[PathSegment.idx 1], rfl⟩
  have h2 : pathResolves (Json.obj [("a", Json.arr [Json.num 5])])
      [PathSegment.key "a"] = true := by decide
  ⟨h1, h2,
    (claim_C3_sanitize_path [PathSegment.key "a", PathSegment.idx 1]
      (Json.obj [("a", Json.arr [Json.num 5])])).2.2.1 [PathSegment.key "a"] h1 h2⟩

/-! ### C4: parse always returns a tagged outcome; blank input is Empty -/

/-- C4: for every underlying parser and every input, `parse` returns one
of the three tagged shapes (`Empty`, `Valid`, `Invalid`) — it never
escapes its boundary — and on every whitespace-only input (in the JS
`trim` sense, covering `""`, `"   "` and `"\n"`) it returns the `Empty`
outcome, which is neither `Valid` nor `Invalid`. -/
theorem claim_C4_parse_total :
    (∀ (jp : String → Except String Json) (text : String),
        parseJsonWithDiagnostics jp text = emptyParse
          ∨ ((parseJsonWithDiagnostics jp text).empty = false
              ∧ (parseJsonWithDiagnostics jp text).ok = true
              ∧ (parseJsonWithDiagnostics jp text).error = none
              ∧ ∃ v, (parseJsonWithDiagnostics jp text).value = some v)
          ∨ ((parseJsonWithDiagnostics jp text).empty = false
              ∧ (parseJsonWithDiagnostics jp text).ok = false
              ∧ (parseJsonWithDiagnostics jp text).value = none
              ∧ ∃ e, (parseJsonWithDiagnostics jp text).error = some e))
      ∧ (∀ (jp : String → Except String Json) (text : String),
          isBlank text = true → parseJsonWithDiagnostics jp text = emptyParse)
      ∧ (∀ jp : String → Except String Json,
          parseJsonWithDiagnostics jp "" = emptyParse
            ∧ parseJsonWithDiagnostics jp "   " = emptyParse
            ∧ parseJsonWithDiagnostics jp "\n" = emptyParse)
      ∧ emptyParse.empty = true ∧ emptyParse.ok = false ∧ emptyParse.error = none := by
  refine ⟨?_, ?_, ?_, rfl, rfl, rfl⟩
  · intro jp text
    unfold parseJsonWithDiagnostics
    by_cases h : isBlank text = true
    · simp [h]
    · simp only [Bool.not_eq_true] at h
      simp only [h, Bool.false_eq_true, if_false]
      cases jp text with
      | ok v => right; left; exact ⟨rfl, rfl, rfl, v, rfl⟩
      | error m => right; right; exact ⟨rfl, rfl, rfl, _, rfl⟩
  · intro jp text h
    unfold parseJsonWithDiagnostics
    simp [h]
  · intro jp
    refine ⟨?_, ?_, ?_⟩ <;>
      · unfold parseJsonWithDiagnostics
        rw [if_pos (by decide)]

/-- Witness for C4: the blank-input clause applied at `"   "` with a
concrete underlying parser. -/
theorem claim_C4_parse_total_witness :
    isBlank "   " = true
      ∧ parseJsonWithDiagnostics (fun _ => Except.error "boom") "   " = emptyParse :=
  ⟨by decide,
    claim_C4_parse_total.2.1 (fun _ => Except.error "boom") "   " (by decide)⟩

/-! ### C5: totality of the PathUtils functions

The claim says every PathUtils function is total over all JSON values
including `null`.  In the source, `getEntries(null)` calls
`Object.entries(null)` and `hasChild(null, key)` calls
`Object.prototype.hasOwnProperty.call(null, key)`, both of which throw a
`TypeError` in JS — modelled here as the `none` result.  Every other
listed function is a total Lean function over all of `Json` by
construction, and the source only reaches `getEntries`/`hasChild` behind
an `isContainer` guard. -/

/-- Counterexample to C5 as stated: at the concrete argument `null`,
`getEntries` and `hasChild` do not return normally (they throw a
`TypeError`, i.e. produce `none`). -/
theorem claim_C5_counterexample :
    ¬ ((getEntries Json.null).isSome = true
        ∧ (hasChild Json.null (PathSegment.key "a")).isSome = true) := by
  decide

/-- C5 as amended: `getEntries` and `hasChild` return normally exactly on
non-`null` arguments (scalars included); the remaining PathUtils
functions (`isContainer`, `sanitizePath`, `matchesQuery`, `searchTree`,
`formatPath`, `toDotPath`, `toJsonPath`) are total over all JSON values
— witnessed by their being plain total functions of the embedding. -/
theorem claim_C5_totality_amended :
    (∀ v : Json, (getEntries v).isSome = true ↔ v ≠ Json.null)
      ∧ (∀ (v : Json) (s : PathSegment), (hasChild v s).isSome = true ↔ v ≠ Json.null) := by
  constructor
  · intro v
    cases v <;> simp [getEntries]
  · intro v s
    cases v <;> cases s <;> simp [hasChild]

/-! ### C6: the empty query

`matchesQuery` rejects the empty query up front (`if (!query) return
false`), but `searchTree` lowers the query and tests
`String.prototype.includes`, and every string contains the empty string —
so with an empty query the walk hits every object key and every scalar.
`emptyish` characterises the documents yielding no such node. -/

mutual

/-- Does a document contain no object key and no scalar node (i.e. is it
built from arrays and empty objects only)?  Exactly these roots make the
empty-query walk produce no hit. -/
def emptyish : Json → Bool
  | .arr items => emptyishList items
  | .obj entries => entries.isEmpty
  | _ => false

/-- `emptyish` on every element of a list. -/
def emptyishList : List Json → Bool
  | [] => true
  | v :: rest => emptyish v && emptyishList rest

end

theorem strIncludes_empty_needle : ∀ s : String, strIncludes s "" = true := by
  intro s
  rw [strIncludes, listContains.eq_def]
  simp [listStartsWith]

mutual

theorem searchWalk_growth (lower : String) (maxResults : Nat) (v : Json)
    (path : List PathSegment) (hits : List ExploreHit) :
    ∃ extra, searchWalk lower maxResults v path hits = hits ++ extra := by
  cases v with
  | arr items =>
      simp only [searchWalk]
      split
      · exact ⟨[], by simp⟩
      · exact searchWalkArr_growth lower maxResults items 0 path hits
  | obj entries =>
      simp only [searchWalk]
      split
      · exact ⟨[], by simp⟩
      · exact searchWalkObj_growth lower maxResults entries path hits
  | null =>
      simp only [searchWalk]
      split
      · exact ⟨[], by simp⟩
      · split <;> [exact ⟨_, rfl⟩; exact ⟨[], by simp⟩]
  | bool b =>
      simp only [searchWalk]
      split
      · exact ⟨[], by simp⟩
      · split <;> [exact ⟨_, rfl⟩; exact ⟨[], by simp⟩]
  | num n =>
      simp only [searchWalk]
      split
      · exact ⟨[], by simp⟩
      · split <;> [exact ⟨_, rfl⟩; exact ⟨[], by simp⟩]
  | str s =>
      simp only [searchWalk]
      split
      · exact ⟨[], by simp⟩
      · split <;> [exact ⟨_, rfl⟩; exact ⟨[], by simp⟩]

theorem searchWalkArr_growth (lower : String) (maxResults : Nat) (items : List Json)
    (index : Nat) (path : List PathSegment) (hits : List ExploreHit) :
    ∃ extra, searchWalkArr lower maxResults items index path hits = hits ++ extra := by
  match items with
  | [] => exact ⟨[], by rw [searchWalkArr]; simp⟩
  | item :: rest =>
      rw [searchWalkArr]
      obtain ⟨e1, he1⟩ :=
        searchWalk_growth lower maxResults item (path ++ [.idx index]) hits
      rw [he1]
      obtain ⟨e2, he2⟩ :=
        searchWalkArr_growth lower maxResults rest (index + 1) path (hits ++ e1)
      rw [he2]
      exact ⟨e1 ++ e2, by simp⟩

theorem searchWalkObj_growth (lower : String) (maxResults : Nat)
    (entries : List (String × Json)) (path : List PathSegment) (hits : List ExploreHit) :
    ∃ extra, searchWalkObj lower maxResults entries path hits = hits ++ extra := by
  match entries with
  | [] => exact ⟨[], by rw [searchWalkObj]; simp⟩
  | (k, v) :: rest =>
      simp only [searchWalkObj]
      split
      · obtain ⟨e1, he1⟩ := searchWalk_growth lower maxResults v (path ++ [.key k])
          (hits ++ [{ path := path ++ [.key k], preview := "key \"" ++ k ++ "\"" }])
        rw [he1]
        obtain ⟨e2, he2⟩ := searchWalkObj_growth lower maxResults rest path
          ((hits ++ [{ path := path ++ [.key k], preview := "key \"" ++ k ++ "\"" }]) ++ e1)
        rw [he2]
        exact ⟨[{ path := path ++ [PathSegment.key k], preview := "key \"" ++ k ++ "\"" }]
          ++ e1 ++ e2, by simp⟩
      · obtain ⟨e1, he1⟩ := searchWalk_growth lower maxResults v (path ++ [.key k]) hits
        rw [he1]
        obtain ⟨e2, he2⟩ := searchWalkObj_growth lower maxResults rest path (hits ++ e1)
        rw [he2]
        exact ⟨e1 ++ e2, by simp⟩

end

mutual

theorem searchWalk_emptyish (maxResults : Nat) (v : Json) (path : List PathSegment)
    (hits : List ExploreHit) (h : emptyish v = true) :
    searchWalk "" maxResults v path hits = hits := by
  cases v with
  | arr items =>
      simp only [searchWalk]
      split
      · rfl
      · exact searchWalkArr_emptyish maxResults items 0 path hits
          (by simpa [emptyish] using h)
  | obj entries =>
      have he : entries = [] := by
        simpa [emptyish, List.isEmpty_iff] using h
      subst he
      simp only [searchWalk]
      split
      · rfl
      · rw [searchWalkObj]
  | null => simp [emptyish] at h
  | bool b => simp [emptyish] at h
  | num n => simp [emptyish] at h
  | str s => simp [emptyish] at h

theorem searchWalkArr_emptyish (maxResults : Nat) (items : List Json) (index : Nat)
    (path : List PathSegment) (hits : List ExploreHit) (h : emptyishList items = true) :
    searchWalkArr "" maxResults items index path hits = hits := by
  match items with
  | [] => rw [searchWalkArr]
  | item :: rest =>
      have h1 : emptyish item = true ∧ emptyishList rest = true := by
        simpa [emptyishList, Bool.and_eq_true] using h
      rw [searchWalkArr,
        searchWalk_emptyish maxResults item (path ++ [PathSegment.idx index]) hits h1.1,
        searchWalkArr_emptyish maxResults rest (index + 1) path hits h1.2]

end

mutual

theorem searchWalk_finds (maxResults : Nat) (v : Json) (path : List PathSegment)
    (hits : List ExploreHit) (hne : emptyish v = false)
    (hcap : hits.length < maxResults) :
    hits.length < (searchWalk "" maxResults v path hits).length := by
  cases v with
  | arr items =>
      simp only [searchWalk]
      split
      · next hge => omega
      · exact searchWalkArr_finds maxResults items 0 path hits
          (by simpa [emptyish] using hne) hcap
  | obj entries =>
      match entries with
      | [] => simp [emptyish] at hne
      | (k, v0) :: rest =>
          simp only [searchWalk]
          split
          · next hge => omega
          · simp only [searchWalkObj]
            rw [if_pos (by simp [strIncludes_empty_needle, hcap])]
            obtain ⟨e1, he1⟩ := searchWalk_growth "" maxResults v0 (path ++ [.key k])
              (hits ++ [{ path := path ++ [.key k], preview := "key \"" ++ k ++ "\"" }])
            rw [he1]
            obtain ⟨e2, he2⟩ := searchWalkObj_growth "" maxResults rest path
              ((hits ++ [{ path := path ++ [.key k], preview := "key \"" ++ k ++ "\"" }]) ++ e1)
            rw [he2]
            simp [List.length_append]
  | null =>
      simp only [searchWalk]
      split
      · next hge => omega
      · rw [if_pos (by simp [strIncludes_empty_needle, hcap])]
        simp [List.length_append]
  | bool b =>
      simp only [searchWalk]
      split
      · next hge => omega
      · rw [if_pos (by simp [strIncludes_empty_needle, hcap])]
        simp [List.length_append]
  | num n =>
      simp only [searchWalk]
      split
      · next hge => omega
      · rw [if_pos (by simp [strIncludes_empty_needle, hcap])]
        simp [List.length_append]
  | str s =>
      simp only [searchWalk]
      split
      · next hge => omega
      · rw [if_pos (by simp [strIncludes_empty_needle, hcap])]
        simp [List.length_append]

theorem searchWalkArr_finds (maxResults : Nat) (items : List Json) (index : Nat)
    (path : List PathSegment) (hits : List ExploreHit)
    (hne : emptyishList items = false) (hcap : hits.length < maxResults) :
    hits.length < (searchWalkArr "" maxResults items index path hits).length := by
  match items with
  | [] => simp [emptyishList] at hne
  | item :: rest =>
      simp only [searchWalkArr]
      by_cases h1 : emptyish item = true
      · rw [searchWalk_emptyish maxResults item (path ++ [PathSegment.idx index]) hits h1]
        refine searchWalkArr_finds maxResults rest (index + 1) path hits ?_ hcap
        simpa [emptyishList, h1] using hne
      · have h1' : emptyish item = false := by simpa using h1
        have hg := searchWalk_finds maxResults item (path ++ [.idx index]) hits h1' hcap
        obtain ⟨e2, he2⟩ := searchWalkArr_growth "" maxResults rest (index + 1) path
          (searchWalk "" maxResults item (path ++ [.idx index]) hits)
        rw [he2]
        simp only [List.length_append]
        omega

end

theorem searchWalk_capped (lower : String) (maxResults : Nat) (v : Json)
    (path : List PathSegment) (hits : List ExploreHit)
    (h : hits.length ≥ maxResults) :
    searchWalk lower maxResults v path hits = hits := by
  cases v <;> (simp only [searchWalk]; rw [if_pos h])

/-- Counterexample to C6 as stated: with an empty query, `searchTree`
does not return an empty hit list — on the scalar root `"x"` it returns
one value hit (because `"x".includes("")` is true in JS). -/
theorem claim_C6_counterexample :
    searchTree (Json.str "x") "" 10 = [{ path := [], preview := "string x" }]
      ∧ searchTree (Json.str "x") "" 10 ≠ [] := by
  constructor
  · decide
  · decide

/-- C6 as amended: `matchesQuery` never matches the empty query, but
`searchTree` does not share that rule — with an empty query it records a
hit for every object key and every scalar node it reaches, so
`search(root, "", maxResults)` is empty exactly when the cap is zero or
the document contains no object key and no scalar (`emptyish`); the
empty-query guard lives in the caller, not in `searchTree`. -/
theorem claim_C6_empty_query_amended :
    (∀ (k : PathSegment) (v : Json), matchesQuery k v "" = false)
      ∧ (∀ (root : Json) (cap : Nat),
          searchTree root "" cap = [] ↔ (cap = 0 ∨ emptyish root = true)) := by
  constructor
  · intro k v
    simp [matchesQuery]
  · intro root cap
    have hl : jsToLower "" = "" := by decide
    constructor
    · intro h
      by_cases hc : cap = 0
      · exact Or.inl hc
      · right
        by_contra hne
        have hne' : emptyish root = false := by simpa using hne
        have hgrow := searchWalk_finds cap root [] [] hne'
          (by simp only [List.length_nil]; omega)
        rw [searchTree, hl] at h
        rw [h] at hgrow
        simp at hgrow
    · rintro (rfl | he)
      · rw [searchTree]
        exact searchWalk_capped (jsToLower "") 0 root [] [] (by simp)
      · rw [searchTree, hl]
        exact searchWalk_emptyish cap root [] [] he

/-! ### C8: context windowing -/

/-- The spec's kept-row predicate: row `i` lies within `contextLines`
positions (inclusive) of some non-context row. -/
def keptSpec (rows : List UnifiedDiffRow) (contextLines i : Nat) : Bool :=
  rows.enum.any fun q =>
    decide (q.2.kind ≠ RowKind.context) && decide (i ≤ q.1 + contextLines)
      && decide (q.1 ≤ i + contextLines)

/-- Modelled from the spec's words for the refinement comparison: if no
row is non-context, the empty sequence; otherwise keep the rows within
`contextLines` of a change and collapse each maximal unkept run into one
gap carrying the run length. -/
def sliceWithContextSpec (rows : List UnifiedDiffRow) (contextLines : Nat) :
    List VisibleDiffRow :=
  if rows.all (fun r => r.kind == RowKind.context) then []
  else collapseRuns (rows.enum.map fun p => (p.2, keptSpec rows contextLines p.1))

theorem enumFrom_mem_lt {α : Type} :
    ∀ (l : List α) (k : Nat) (p : Nat × α), p ∈ List.enumFrom k l → k ≤ p.1 ∧ p.1 < k + l.length := by
  intro l
  induction l with
  | nil => intro k p hp; simp [List.enumFrom] at hp
  | cons x xs ih =>
      intro k p hp
      simp only [List.enumFrom, List.mem_cons] at hp
      cases hp with
      | inl h => subst h; simp
      | inr h =>
          have := ih (k + 1) p h
          constructor <;> [omega; {simp only [List.length_cons]; omega}]

theorem changed_nil_iff :
    ∀ (l : List UnifiedDiffRow) (k : Nat),
      ((List.enumFrom k l).filterMap fun p =>
          if p.2.kind ≠ RowKind.context then some p.1 else none) = []
        ↔ ∀ r ∈ l, r.kind = RowKind.context := by
  intro l
  induction l with
  | nil => intro k; simp [List.enumFrom]
  | cons x xs ih =>
      intro k
      simp only [List.enumFrom, List.filterMap_cons, List.mem_cons]
      by_cases hx : x.kind = RowKind.context
      · simp only [hx, ne_eq, not_true_eq_false, if_false]
        rw [ih (k + 1)]
        constructor
        · intro h r hr
          cases hr with
          | inl h1 => subst h1; exact hx
          | inr h1 => exact h r h1
        · intro h r hr; exact h r (Or.inr hr)
      · simp only [hx, ne_eq, not_false_eq_true, if_true]
        constructor
        · intro h; simp at h
        · intro h; exact absurd (h x (Or.inl rfl)) hx

theorem any_filterMap {α β : Type} (f : α → Option β) (g : β → Bool) :
    ∀ l : List α,
      (l.filterMap f).any g =
        l.any fun a =>
          match f a with
          | some b => g b
          | none => false := by
  intro l
  induction l with
  | nil => rfl
  | cons x xs ih =>
      simp only [List.filterMap_cons]
      cases hfx : f x with
      | none => simp only [List.any_cons, hfx, ih, Bool.false_or]
      | some b => simp only [List.any_cons, hfx, ih]

theorem list_any_congr {α : Type} {p q : α → Bool} :
    ∀ l : List α, (∀ a ∈ l, p a = q a) → l.any p = l.any q := by
  intro l
  induction l with
  | nil => intro _; rfl
  | cons x xs ih =>
      intro h
      simp only [List.any_cons, h x (List.mem_cons_self x xs),
        ih fun a ha => h a (List.mem_cons_of_mem x ha)]

theorem slice_eq_spec :
    ∀ (rows : List UnifiedDiffRow) (n : Nat),
      sliceDiffWithContext rows n = sliceWithContextSpec rows n := by
  intro rows n
  unfold sliceDiffWithContext sliceWithContextSpec
  by_cases hall : ∀ r ∈ rows, r.kind = RowKind.context
  · rw [if_pos, if_pos]
    · rw [List.all_eq_true]
      intro r hr
      exact beq_iff_eq.mpr (hall r hr)
    · have := (changed_nil_iff rows 0).mpr hall
      rw [List.enum, this]
      rfl
  · rw [if_neg, if_neg]
    · apply congrArg
      apply List.map_congr_left
      intro p hp
      have hlt : p.1 < rows.length := by
        have := enumFrom_mem_lt rows 0 p (by rw [List.enum] at hp; exact hp)
        omega
      apply congrArg
      simp only [keptSpec, List.enum, any_filterMap]
      apply list_any_congr
      intro q hq
      have hqlt : q.1 < rows.length := by
        have := enumFrom_mem_lt rows 0 q hq
        omega
      by_cases hk : q.2.kind = RowKind.context
      · simp [hk]
      · rw [if_pos (show q.2.kind ≠ RowKind.context from hk)]
        simp only [decide_eq_true_eq]
        rw [Bool.eq_iff_iff]
        simp only [Bool.and_eq_true, decide_eq_true_eq]
        constructor
        · rintro ⟨h1, h2⟩
          rw [Nat.le_min] at h2
          exact ⟨⟨hk, by omega⟩, by omega⟩
        · rintro ⟨⟨_, h2⟩, h3⟩
          refine ⟨by omega, ?_⟩
          rw [Nat.le_min]
          exact ⟨by omega, by omega⟩
    · intro hbeq
      apply hall
      intro r hr
      exact beq_iff_eq.mp (List.all_eq_true.mp hbeq r hr)
    · intro hlen
      apply hall
      rw [← changed_nil_iff rows 0]
      rw [List.enum] at hlen
      exact List.length_eq_zero.mp hlen

/-- The row carried by a visible row, if it is not a gap. -/
def rowOfVisible : VisibleDiffRow → Option UnifiedDiffRow
  | .row r => some r
  | .gap _ => none

theorem drop_length_takeWhile {α : Type} (p : α → Bool) (l : List α) :
    l.drop (l.takeWhile p).length = l.dropWhile p := by
  induction l with
  | nil => rfl
  | cons x xs ih =>
      by_cases h : p x
      · simp [List.takeWhile_cons, List.dropWhile_cons, h, ih]
      · simp [List.takeWhile_cons, List.dropWhile_cons, h]

theorem collapseRuns_filterMap :
    ∀ l : List (UnifiedDiffRow × Bool),
      (collapseRuns l).filterMap rowOfVisible = (l.filter fun p => p.2).map Prod.fst := by
  intro l
  match l with
  | [] => simp [collapseRuns]
  | (r, true) :: rest =>
      rw [collapseRuns]
      simp [List.filterMap_cons, rowOfVisible, List.filter_cons,
        collapseRuns_filterMap rest]
  | (r, false) :: rest =>
      rw [collapseRuns]
      simp only [List.filterMap_cons, rowOfVisible, List.filter_cons, Bool.false_eq_true,
        if_false]
      rw [collapseRuns_filterMap (rest.drop (rest.takeWhile fun p => !p.2).length)]
      rw [drop_length_takeWhile]
      conv_rhs => rw [← List.takeWhile_append_dropWhile (p := fun p => !p.2) (l := rest)]
      rw [List.filter_append]
      have hnil : (rest.takeWhile fun p => !p.2).filter (fun p => p.2) = [] := by
        rw [List.filter_eq_nil_iff]
        intro a ha
        have := List.mem_takeWhile_imp ha
        simp only [Bool.not_eq_true'] at this
        simp [this]
      rw [hnil, List.nil_append]
termination_by l => l.length
decreasing_by
  all_goals simp_wf
  all_goals omega

theorem keptSpec_false_of_all_context {rows : List UnifiedDiffRow} {n i : Nat}
    (hall : ∀ r ∈ rows, r.kind = RowKind.context) : keptSpec rows n i = false := by
  rw [keptSpec]
  rw [List.any_eq_false]
  intro q hq
  have hmem : q.2 ∈ rows := by
    have : rows.enum.map Prod.snd = rows := List.enum_map_snd rows
    rw [← this]
    exact List.mem_map_of_mem Prod.snd hq
  simp [hall q.2 hmem]

/-- C8: if every row is context, `sliceWithContext` returns the empty
sequence; in general it agrees with the spec description — keep exactly
the rows within `contextLines` (inclusive) of a non-context row and
collapse each maximal non-kept run into one `Gap` carrying the run
length; the non-gap rows of the output are exactly the kept rows,
verbatim and in order; on `[ctx,ctx,del,ctx,ctx,ctx,add,ctx]` with
`contextLines = 0` the result is `[Gap 2, del, Gap 3, add, Gap 1]`. -/
theorem claim_C8_context_windowing :
    (∀ (rows : List UnifiedDiffRow) (n : Nat),
        (∀ r ∈ rows, r.kind = RowKind.context) → sliceDiffWithContext rows n = [])
      ∧ (∀ (rows : List UnifiedDiffRow) (n : Nat),
          sliceDiffWithContext rows n = sliceWithContextSpec rows n)
      ∧ (∀ (rows : List UnifiedDiffRow) (n : Nat),
          (sliceDiffWithContext rows n).filterMap rowOfVisible
            = (rows.enum.filter fun p => keptSpec rows n p.1).map Prod.snd)
      ∧ sliceDiffWithContext
          [{ kind := .context, leftNo := some 1, rightNo := some 1, text := "c1" },
           { kind := .context, leftNo := some 2, rightNo := some 2, text := "c2" },
           { kind := .del, leftNo := some 3, rightNo := none, text := "d" },
           { kind := .context, leftNo := some 4, rightNo := some 3, text := "c3" },
           { kind := .context, leftNo := some 5, rightNo := some 4, text := "c4" },
           { kind := .context, leftNo := some 6, rightNo := some 5, text := "c5" },
           { kind := .add, leftNo := none, rightNo := some 6, text := "a" },
           { kind := .context, leftNo := some 7, rightNo := some 7, text := "c6" }] 0 =
        [.gap 2,
         .row { kind := .del, leftNo := some 3, rightNo := none, text := "d" },
         .gap 3,
         .row { kind := .add, leftNo := none, rightNo := some 6, text := "a" },
         .gap 1] := by
  refine ⟨?_, slice_eq_spec, ?_, ?_⟩
  · intro rows n hall
    rw [slice_eq_spec, sliceWithContextSpec,
      if_pos (List.all_eq_true.mpr fun r hr => beq_iff_eq.mpr (hall r hr))]
  · intro rows n
    rw [slice_eq_spec, sliceWithContextSpec]
    split
    · next hallb =>
        have hall : ∀ r ∈ rows, r.kind = RowKind.context := fun r hr =>
          beq_iff_eq.mp (List.all_eq_true.mp hallb r hr)
        rw [List.filter_eq_nil_iff.mpr fun q _ => by
          simp [keptSpec_false_of_all_context hall]]
        rfl
    · next hallb =>
        rw [collapseRuns_filterMap, List.filter_map, List.map_map]
        rfl
  · simp [sliceDiffWithContext, collapseRuns, List.enum, List.enumFrom, List.takeWhile]

/-- Witness for C8: the all-context clause applied to a concrete
one-row list. -/
theorem claim_C8_context_windowing_witness :
    sliceDiffWithContext
      [{ kind := RowKind.context, leftNo := some 1, rightNo := some 1, text := "x" }] 3 = [] :=
  claim_C8_context_windowing.1
    [{ kind := RowKind.context, leftNo := some 1, rightNo := some 1, text := "x" }] 3
    (by intro r hr; simp only [List.mem_singleton] at hr; subst hr; rfl)

/-! ### C9: the trailing-comma classification on `\x7b"a":1,\x7d` -/

theorem extractPositionFromMessage_le (text msg : List Char) :
    extractPositionFromMessage text msg ≤ text.length - 1 := by
  rw [extractPositionFromMessage]
  split
  · exact Nat.min_le_left _ _
  · split
    · simp only [toOffset, clampNat]
      exact Nat.min_le_left _ _
    · exact Nat.le_refl _

theorem suggestFix_trailing_comma_c9 (pos : Nat) (msg : List Char) (hpos : pos ≤ 7) :
    suggestFix ("\x7b\"a\":1,\x7d".toList) pos msg =
      "Check for a trailing comma before a closing brace or bracket." := by
  have htl : (("\x7b\"a\":1,\x7d".toList)).length = 8 := by decide
  simp only [suggestFix]
  have h1 : pos - 40 = 0 := by omega
  have h2 : min (("\x7b\"a\":1,\x7d".toList)).length (pos + 40) = 8 := by
    rw [htl]; omega
  rw [h1, h2]
  have haround :
      ((("\x7b\"a\":1,\x7d".toList)).drop 0).take (8 - 0) = "\x7b\"a\":1,\x7d".toList := by
    decide
  rw [haround,
    if_pos (by rw [show hasCommaBeforeClose ("\x7b\"a\":1,\x7d".toList) = true from by decide]
               simp)]

/-- C9: on the input `\x7b"a":1,\x7d`, whatever failure message the
underlying parser supplies, `parse` returns `Invalid` and the resulting
error's suggestion is the trailing-comma hint (the first pattern of the
first-match-wins classification: a comma immediately before a closing
brace/bracket inside the 40-characters-each-side window around the
recovered offset). -/
theorem claim_C9_trailing_comma :
    ∀ (jp : String → Except String Json) (msg : String),
      jp "\x7b\"a\":1,\x7d" = Except.error msg →
        (parseJsonWithDiagnostics jp "\x7b\"a\":1,\x7d").ok = false
          ∧ (parseJsonWithDiagnostics jp "\x7b\"a\":1,\x7d").empty = false
          ∧ ∃ e, (parseJsonWithDiagnostics jp "\x7b\"a\":1,\x7d").error = some e
              ∧ e.suggestion =
                  "Check for a trailing comma before a closing brace or bracket." := by
  intro jp msg hjp
  rw [parseJsonWithDiagnostics,
    if_neg (by rw [show isBlank "\x7b\"a\":1,\x7d" = false from by decide]; simp), hjp]
  refine ⟨rfl, rfl, _, rfl, ?_⟩
  have hle := extractPositionFromMessage_le ("\x7b\"a\":1,\x7d".toList) msg.toList
  have htl : (("\x7b\"a\":1,\x7d".toList)).length = 8 := by decide
  rw [htl] at hle
  exact suggestFix_trailing_comma_c9 _ _ (by omega)

/-- Witness for C9: the theorem applied to a concrete failing parser. -/
theorem claim_C9_trailing_comma_witness :
    (parseJsonWithDiagnostics (fun _ => Except.error "boom") "\x7b\"a\":1,\x7d").ok = false
      ∧ (parseJsonWithDiagnostics (fun _ => Except.error "boom") "\x7b\"a\":1,\x7d").empty = false
      ∧ ∃ e, (parseJsonWithDiagnostics (fun _ => Except.error "boom") "\x7b\"a\":1,\x7d").error
              = some e
          ∧ e.suggestion =
              "Check for a trailing comma before a closing brace or bracket." :=
  claim_C9_trailing_comma (fun _ => Except.error "boom") "boom" rfl

/-! ### C1: minimality of the LCS edit script -/

/-- Is an op an `Equal`? -/
def isEqOp : DiffOp → Bool
  | .equal _ _ => true
  | _ => false

/-- Is an op a `Delete`? -/
def isDelOp : DiffOp → Bool
  | .del _ => true
  | _ => false

/-- Is an op an `Insert`? -/
def isAddOp : DiffOp → Bool
  | .add _ => true
  | _ => false

/-- Is an op a `Delete` or an `Insert`? -/
def isDelOrAdd : DiffOp → Bool
  | .equal _ _ => false
  | _ => true

/-- `k` is the length of a longest common subsequence of `l` and `r`. -/
def isLcsLenOf (k : Nat) (l r : List String) : Prop :=
  (∃ s, List.Sublist s l ∧ List.Sublist s r ∧ s.length = k)
    ∧ ∀ s, List.Sublist s l → List.Sublist s r → s.length ≤ k

theorem lcsLen_le :
    ∀ l r : List String, lcsLen l r ≤ l.length ∧ lcsLen l r ≤ r.length := by
  intro l
  induction l with
  | nil => intro r; rw [lcsLen]; exact ⟨Nat.zero_le _, Nat.zero_le _⟩
  | cons a as ihl =>
      intro r
      induction r with
      | nil => rw [lcsLen]; exact ⟨Nat.zero_le _, Nat.zero_le _⟩
      | cons b bs ihr =>
          rw [lcsLen]
          split
          · have := ihl bs
            simp only [List.length_cons]
            omega
          · have h1 := ihl (b :: bs)
            have h2 := ihr
            simp only [List.length_cons] at h1 h2 ⊢
            constructor
            · exact Nat.max_le.mpr ⟨by omega, by omega⟩
            · exact Nat.max_le.mpr ⟨by omega, by omega⟩

theorem cons_sublist_cons_inv {c a : String} {cs as : List String}
    (h : List.Sublist (c :: cs) (a :: as)) :
    List.Sublist (c :: cs) as ∨ (c = a ∧ List.Sublist cs as) := by
  cases h with
  | cons _ h => exact Or.inl h
  | cons₂ _ h => exact Or.inr ⟨rfl, h⟩

theorem sublist_tail_of_cons {c a : String} {cs as : List String}
    (h : List.Sublist (c :: cs) (a :: as)) : List.Sublist cs as := by
  rcases cons_sublist_cons_inv h with h1 | ⟨_, h1⟩
  · exact List.Sublist.trans (List.sublist_cons_self c cs) h1
  · exact h1

theorem lcsLen_upper :
    ∀ (l r s : List String),
      List.Sublist s l → List.Sublist s r → s.length ≤ lcsLen l r := by
  intro l
  induction l with
  | nil =>
      intro r s hsl _
      have := List.sublist_nil.mp hsl
      subst this
      exact Nat.zero_le _
  | cons a as ihl =>
      intro r
      induction r with
      | nil =>
          intro s _ hsr
          have := List.sublist_nil.mp hsr
          subst this
          exact Nat.zero_le _
      | cons b bs ihr =>
          intro s hsl hsr
          rw [lcsLen]
          split
          · next hab =>
              subst hab
              cases s with
              | nil => exact Nat.zero_le _
              | cons c cs =>
                  have h1 := sublist_tail_of_cons hsl
                  have h2 := sublist_tail_of_cons hsr
                  have := ihl bs cs h1 h2
                  simp only [List.length_cons]
                  omega
          · next hab =>
              cases s with
              | nil => exact Nat.zero_le _
              | cons c cs =>
                  rcases cons_sublist_cons_inv hsl with h1 | ⟨hca, h1⟩
                  · exact Nat.le_trans (ihl (b :: bs) (c :: cs) h1 hsr)
                      (Nat.le_max_left _ _)
                  · rcases cons_sublist_cons_inv hsr with h2 | ⟨hcb, h2⟩
                    · exact Nat.le_trans (ihr (c :: cs) hsl h2) (Nat.le_max_right _ _)
                    · exact absurd (hca.symm.trans hcb) hab

theorem lcsLen_exists :
    ∀ l r : List String,
      ∃ s, List.Sublist s l ∧ List.Sublist s r ∧ s.length = lcsLen l r := by
  intro l
  induction l with
  | nil =>
      intro r
      exact ⟨[], List.nil_sublist _, List.nil_sublist _, by rw [lcsLen]; rfl⟩
  | cons a as ihl =>
      intro r
      induction r with
      | nil =>
          exact ⟨[], List.nil_sublist _, List.nil_sublist _, by rw [lcsLen]; rfl⟩
      | cons b bs ihr =>
          by_cases hab : a = b
          · subst hab
            obtain ⟨s, h1, h2, hlen⟩ := ihl bs
            refine ⟨a :: s, List.Sublist.cons₂ a h1, List.Sublist.cons₂ a h2, ?_⟩
            rw [lcsLen, if_pos rfl]
            simp [hlen]
          · by_cases hge : lcsLen as (b :: bs) ≥ lcsLen (a :: as) bs
            · obtain ⟨s, h1, h2, hlen⟩ := ihl (b :: bs)
              refine ⟨s, List.Sublist.cons a h1, h2, ?_⟩
              rw [lcsLen, if_neg hab, Nat.max_eq_left hge, hlen]
            · obtain ⟨s, h1, h2, hlen⟩ := ihr
              refine ⟨s, h1, List.Sublist.cons b h2, ?_⟩
              rw [lcsLen, if_neg hab,
                Nat.max_eq_right (Nat.le_of_lt (Nat.lt_of_not_le hge)), hlen]

theorem lcsWalk_counts :
    ∀ l r : List String,
      (lcsWalk l r).countP isEqOp = lcsLen l r
        ∧ (lcsWalk l r).countP isDelOp = l.length - lcsLen l r
        ∧ (lcsWalk l r).countP isAddOp = r.length - lcsLen l r
        ∧ (lcsWalk l r).countP isDelOrAdd
            = (l.length - lcsLen l r) + (r.length - lcsLen l r) := by
  intro l
  induction l with
  | nil =>
      intro r
      rw [lcsWalk, lcsLen]
      simp [List.countP_map, Function.comp_def, isEqOp, isDelOp, isAddOp, isDelOrAdd,
        List.countP_eq_length]
  | cons a as ihl =>
      intro r
      induction r with
      | nil =>
          rw [lcsWalk, lcsLen]
          simp [List.countP_map, Function.comp_def, isEqOp, isDelOp, isAddOp, isDelOrAdd,
            List.countP_eq_length]
      | cons b bs ihr =>
          rw [lcsWalk]
          split
          · next hab =>
              subst hab
              have hlcs : lcsLen (a :: as) (a :: bs) = lcsLen as bs + 1 := by
                rw [lcsLen, if_pos rfl]
              obtain ⟨he, hd, ha, hda⟩ := ihl bs
              obtain ⟨hb1, hb2⟩ := lcsLen_le as bs
              simp only [List.countP_cons, isEqOp, isDelOp, isAddOp, isDelOrAdd, hlcs,
                List.length_cons, he, hd, ha, hda, if_true, Bool.false_eq_true, if_false,
                true_and, and_true]
              omega
          · next hab =>
              split
              · next hge =>
                  have hlcs : lcsLen (a :: as) (b :: bs) = lcsLen as (b :: bs) := by
                    rw [lcsLen, if_neg hab, Nat.max_eq_left hge]
                  obtain ⟨he, hd, ha, hda⟩ := ihl (b :: bs)
                  obtain ⟨hb1, hb2⟩ := lcsLen_le as (b :: bs)
                  simp only [List.length_cons] at hb2
                  simp only [List.countP_cons, isEqOp, isDelOp, isAddOp, isDelOrAdd, hlcs,
                    List.length_cons, he, hd, ha, hda, if_true, Bool.false_eq_true, if_false]
                  omega
              · next hlt =>
                  have hlcs : lcsLen (a :: as) (b :: bs) = lcsLen (a :: as) bs := by
                    rw [lcsLen, if_neg hab,
                      Nat.max_eq_right (Nat.le_of_lt (Nat.lt_of_not_le hlt))]
                  obtain ⟨he, hd, ha, hda⟩ := ihr
                  obtain ⟨hb1, hb2⟩ := lcsLen_le (a :: as) bs
                  simp only [List.length_cons] at hb1
                  simp only [List.countP_cons, isEqOp, isDelOp, isAddOp, isDelOrAdd, hlcs,
                    List.length_cons, he, hd, ha, hda, if_true, Bool.false_eq_true, if_false]
                  omega

/-- C1: under the `n * m <= 3,000,000` cell guard, `diffLines` takes the
LCS branch and its number of `Delete` plus `Insert` ops equals
`n + m - 2 * L`, where `L` (`lcsLen`, the value of the DP table at
`(0,0)`) is exactly the length of a longest common subsequence of the
two sides; on `["a","b","c"]` vs `["a","x","c"]` the delete-biased
tie-break yields `[Equal(a,a), Delete(b), Insert(x), Equal(c,c)]`. -/
theorem claim_C1_minimal_edit_script :
    (∀ left right : List String,
        left.length * right.length ≤ 3000000 →
          isLcsLenOf (lcsLen left right) left right
            ∧ (diffLines left right).countP isDelOrAdd
                = left.length + right.length - 2 * lcsLen left right)
      ∧ diffLines ["a", "b", "c"] ["a", "x", "c"] =
          [.equal "a" "a", .del "b", .add "x", .equal "c" "c"] := by
  constructor
  · intro left right h
    refine ⟨⟨lcsLen_exists left right, fun s h1 h2 => lcsLen_upper left right s h1 h2⟩, ?_⟩
    rw [diffLines, if_neg (by omega)]
    have hc := (lcsWalk_counts left right).2.2.2
    have hb1 := (lcsLen_le left right).1
    have hb2 := (lcsLen_le left right).2
    omega
  · rw [diffLines, if_neg (by decide)]
    have hbx : ("b" : String) ≠ "x" := by decide
    have hcx : ("c" : String) ≠ "x" := by decide
    norm_num [lcsWalk, lcsLen, hbx, hcx]

/-- Witness for C1: the quantified part applied at the one-line lists
`["a"]` and `["a"]`, whose product satisfies the guard. -/
theorem claim_C1_minimal_edit_script_witness :
    ((["a"] : List String).length * (["a"] : List String).length ≤ 3000000)
      ∧ (isLcsLenOf (lcsLen ["a"] ["a"]) ["a"] ["a"]
          ∧ (diffLines ["a"] ["a"]).countP isDelOrAdd
              = (["a"] : List String).length + (["a"] : List String).length
                  - 2 * lcsLen ["a"] ["a"]) :=
  ⟨by decide, claim_C1_minimal_edit_script.1 ["a"] ["a"] (by decide)⟩

end Workbench
